import Mathlib

/-!
Verification of the listing-evaluation pipeline shared by the three program
variants `mode_a_bot.py`, `mode_a_bot_v2.py` and `mode_a_bot_web.py`.

Strings are embedded as `List Char`.  Pure helper functions of the source
(`normalize`, `parse_price`, the four rule predicates) are translated one by
one; the stateful poll loop (`run_once`, `main`/`bot_loop`) is embedded as
explicit state passing over the in-memory seen set, with the marketplace
fetchers, the notification sink and the fingerprint digest abstracted as
parameters (the fetchers and the sink are external collaborators; the digest
only matters through being a deterministic function of the URL).
-/

namespace ModeA

/-- The set of characters matched by Python's regex class `\s` on `str`
patterns and stripped by `str.strip()` / `int()`: the ASCII whitespace
characters (tab..carriage-return, space), the information separators
`\x1c`-`\x1f`, next-line `\x85`, no-break space `\xa0`, and the Unicode
space separators. -/
def pySpaceP (n : Nat) : Prop :=
  n = 32 ∨ (9 ≤ n ∧ n ≤ 13) ∨ (28 ≤ n ∧ n ≤ 31) ∨ n = 133 ∨ n = 160 ∨ n = 5760 ∨
  (8192 ≤ n ∧ n ≤ 8202) ∨ n = 8232 ∨ n = 8233 ∨ n = 8239 ∨ n = 8287 ∨ n = 12288

instance (n : Nat) : Decidable (pySpaceP n) := by
  unfold pySpaceP; infer_instance

/-- Boolean form of the whitespace class, as the source's predicates use it. -/
def pySpace (c : Char) : Bool :=
  decide (pySpaceP c.toNat)

/-- Python's regex class `\d`, restricted to the ASCII decimal digits that the
listings and the tests of this development use. -/
def pyDigit (c : Char) : Bool :=
  decide (48 ≤ c.toNat ∧ c.toNat ≤ 57)

/-- `str.lower()` restricted to ASCII input, which is the only input it
receives in `normalize` (it runs after the text was encoded to ASCII). -/
def toLowerChar (c : Char) : Char :=
  if h : 65 ≤ c.toNat ∧ c.toNat ≤ 90 then
    Char.ofNatAux (c.toNat + 32) (Or.inl (by omega))
  else c

/-- NFKD decomposition of one character followed by the `ascii`/`ignore`
codec, i.e. `unicodedata.normalize("NFKD", ·).encode("ascii","ignore")`
applied characterwise.  NFKD is the identity on the ASCII range; outside it
the embedding carries the decomposition table for the accented Latin letters
that occur in the marketplaces' French text, and every character whose
decomposition has no ASCII part is dropped by the codec (the `filter`). -/
def nfkdDecomp (c : Char) : List Char :=
  match c with
  | 'à' => ['a'] | 'â' => ['a'] | 'ä' => ['a'] | 'á' => ['a'] | 'ã' => ['a']
  | 'ç' => ['c']
  | 'é' => ['e'] | 'è' => ['e'] | 'ê' => ['e'] | 'ë' => ['e']
  | 'î' => ['i'] | 'ï' => ['i'] | 'í' => ['i']
  | 'ô' => ['o'] | 'ö' => ['o'] | 'ó' => ['o'] | 'õ' => ['o']
  | 'ù' => ['u'] | 'û' => ['u'] | 'ü' => ['u'] | 'ú' => ['u']
  | 'ñ' => ['n']
  | 'À' => ['A'] | 'Â' => ['A'] | 'Ä' => ['A'] | 'Á' => ['A'] | 'Ã' => ['A']
  | 'Ç' => ['C']
  | 'É' => ['E'] | 'È' => ['E'] | 'Ê' => ['E'] | 'Ë' => ['E']
  | 'Î' => ['I'] | 'Ï' => ['I'] | 'Í' => ['I']
  | 'Ô' => ['O'] | 'Ö' => ['O'] | 'Ó' => ['O'] | 'Õ' => ['O']
  | 'Ù' => ['U'] | 'Û' => ['U'] | 'Ü' => ['U'] | 'Ú' => ['U']
  | 'Ñ' => ['N']
  | _ => []

/-- One character through NFKD plus the `ascii`/`ignore` codec. -/
def nfkdAscii (c : Char) : List Char :=
  if c.toNat < 128 then [c]
  else (nfkdDecomp c).filter (fun d => d.toNat < 128)

/-- `unicodedata.normalize("NFKD", txt).encode("ascii","ignore").decode("ascii")`
over a whole string. -/
def asciiFold : List Char → List Char
  | [] => []
  | c :: r => nfkdAscii c ++ asciiFold r

/-- `str.strip()`: remove leading and trailing whitespace. -/
def stripWs (l : List Char) : List Char :=
  ((l.dropWhile pySpace).reverse.dropWhile pySpace).reverse

/-- Worker for `re.sub(r"\s+", " ", ·)`: the flag records whether we are in
the middle of a whitespace run whose single replacement space was already
emitted. -/
def collapseAux : List Char → Bool → List Char
  | [], _ => []
  | c :: rest, inRun =>
    if pySpace c then
      if inRun then collapseAux rest true
      else ' ' :: collapseAux rest true
    else c :: collapseAux rest false

/-- `re.sub(r"\s+", " ", l)`: every maximal whitespace run becomes one space. -/
def collapseWs (l : List Char) : List Char :=
  collapseAux l false

/-- `normalize` of `mode_a_bot.py` (identical in the other two variants):
empty/falsy input gives `""`; otherwise NFKD-fold to ASCII, strip, lower,
and collapse whitespace runs. -/
def normalize (l : List Char) : List Char :=
  if l = [] then []
  else collapseWs ((stripWs (asciiFold l)).map toLowerChar)

/-- Python's substring test `needle in hay` at the current position. -/
def matchesAt : List Char → List Char → Bool
  | [], _ => true
  | _ :: _, [] => false
  | a :: as, b :: bs => a == b && matchesAt as bs

/-- Python's substring test `needle in hay` (contiguous substring; the empty
needle is contained in everything). -/
def containsSub (n : List Char) : List Char → Bool
  | [] => matchesAt n []
  | c :: t => matchesAt n (c :: t) || containsSub n t

/-! ### Leading and trailing whitespace -/

/-- The list does not start with a whitespace character. -/
def headNS : List Char → Prop
  | [] => True
  | c :: _ => pySpace c = false

/-- The list does not end with a whitespace character. -/
def lastNS (l : List Char) : Prop := headNS l.reverse

/-! ### The rule set and the four predicates

The configuration dictionary `cfg` is embedded as a structure holding the
keys the evaluation pipeline reads.  A key read with `cfg.get(k, default)`
and absent is the same as present with the default, so list- and
boolean-valued keys are embedded directly; the two price bounds keep an
explicit `Option` because variant 1 indexes them with `cfg[...]` and its
behaviour on a missing key (a `KeyError` swallowed by the bare `except`)
differs from `cfg.get(...)` with a default.  JSON numeric bounds are
embedded as integers; the listing price parsed by `parse_price` is a
natural number below 10^7, for which Python's `float` conversion and
comparisons are exact. -/
structure RuleSet where
  models : List (List Char)
  price_min : Option Int
  price_max : Option Int
  require_shipping : Bool
  shipping_positive : List (List Char)
  shipping_negative : List (List Char)
  terms_any : List (List (List Char))
  terms_exclude : List (List Char)
  search_interval_seconds : Option Int

/-- `in_model_range` of `mode_a_bot.py`: normalizes the title, then passes
unconditionally when `models` is empty ( `... if models else True`), else
checks whether any normalized model string occurs in the normalized title. -/
def in_model_range (title : List Char) (models : List (List Char)) : Bool :=
  let t := normalize title
  if models.isEmpty then true
  else models.any fun m => containsSub (normalize m) t

/-- `in_model_range` of `mode_a_bot_v2.py`/`mode_a_bot_web.py`: early return
on empty `models`, then the same check. -/
def in_model_range_v2 (title : List Char) (models : List (List Char)) : Bool :=
  if models.isEmpty then true
  else
    let t := normalize title
    models.any fun m => containsSub (normalize m) t

/-- `price_ok` of `mode_a_bot.py`.  `None` passes.  Otherwise the chained
comparison `cfg["price_min"] <= p <= cfg["price_max"]` runs under a bare
`except: return True`: a missing `price_min` raises `KeyError` before any
comparison (→ `True`); with `price_min` present, `price_min <= p` is
evaluated first and short-circuits the chain to `False` when it fails, so
`price_max` is only looked up — raising on absence (→ `True`) — when
`price_min <= p` held. -/
def price_ok (price : Option Nat) (cfg : RuleSet) : Bool :=
  match price with
  | none => true
  | some p =>
    match cfg.price_min with
    | none => true
    | some lo =>
      if (p : Int) < lo then false
      else
        match cfg.price_max with
        | none => true
        | some hi => decide ((p : Int) ≤ hi)

/-- `price_ok` of `mode_a_bot_v2.py`/`mode_a_bot_web.py`:
`cfg.get("price_min", 0) <= p <= cfg.get("price_max", 10**9)`. -/
def price_ok_v2 (price : Option Nat) (cfg : RuleSet) : Bool :=
  match price with
  | none => true
  | some p =>
    decide (cfg.price_min.getD 0 ≤ (p : Int)) &&
    decide ((p : Int) ≤ cfg.price_max.getD 1000000000)

/-- `shipping_passes` of `mode_a_bot.py`: without `require_shipping` it
passes; otherwise a positive shipping term must occur (vacuously true when
the positive list is empty) and no negative term may occur. -/
def shipping_passes (text : List Char) (cfg : RuleSet) : Bool :=
  if !cfg.require_shipping then true
  else
    let t := normalize text
    let pos := if cfg.shipping_positive.isEmpty then true
               else cfg.shipping_positive.any fun w => containsSub (normalize w) t
    let neg := if cfg.shipping_negative.isEmpty then false
               else cfg.shipping_negative.any fun w => containsSub (normalize w) t
    pos && !neg

/-- `shipping_passes` of `mode_a_bot_v2.py`/`mode_a_bot_web.py`: the term
lists are normalized up front, then the same membership tests. -/
def shipping_passes_v2 (text : List Char) (cfg : RuleSet) : Bool :=
  if !cfg.require_shipping then true
  else
    let t := normalize text
    let pos_terms := cfg.shipping_positive.map normalize
    let neg_terms := cfg.shipping_negative.map normalize
    let has_pos := if pos_terms.isEmpty then true
                   else pos_terms.any fun w => containsSub w t
    let has_neg := if neg_terms.isEmpty then false
                   else neg_terms.any fun w => containsSub w t
    has_pos && !has_neg

/-- The combined haystack `f"{title or ''} {desc or ''}"`. -/
def combined (title desc : List Char) : List Char :=
  title ++ ' ' :: desc

/-- `terms_pass` of `mode_a_bot.py`: at least one term of some `terms_any`
group must occur (vacuous when no groups), and no `terms_exclude` term may
occur (vacuous when that list is empty).  The `terms_optional` key is read
but unused by the source and is omitted here. -/
def terms_pass (title desc : List Char) (cfg : RuleSet) : Bool :=
  let t := normalize (combined title desc)
  let ok_any := if cfg.terms_any.isEmpty then true
                else cfg.terms_any.any fun g => g.any fun term => containsSub (normalize term) t
  let ok_exc := if cfg.terms_exclude.isEmpty then true
                else !(cfg.terms_exclude.any fun term => containsSub (normalize term) t)
  ok_any && ok_exc

/-- `terms_pass` of `mode_a_bot_v2.py`/`mode_a_bot_web.py`: the exclusion
terms are normalized up front. -/
def terms_pass_v2 (title desc : List Char) (cfg : RuleSet) : Bool :=
  let t := normalize (combined title desc)
  let exc_terms := cfg.terms_exclude.map normalize
  let ok_any := if cfg.terms_any.isEmpty then true
                else cfg.terms_any.any fun g => g.any fun term => containsSub (normalize term) t
  let ok_exc := if exc_terms.isEmpty then true
                else !(exc_terms.any fun x => containsSub x t)
  ok_any && ok_exc

/-- A raw listing as the filter loop reads it: `title`/`desc` via
`.get(...,"")`, `price` from `parse_price`, `url` as identity. -/
structure Item where
  title : List Char
  desc : List Char
  price : Option Nat
  url : List Char

/-- The accept decision of `run_once` in `mode_a_bot.py`: the four guards
with `continue` are the short-circuit conjunction in source order. -/
def accept_v1 (cfg : RuleSet) (it : Item) : Bool :=
  in_model_range it.title cfg.models &&
  price_ok it.price cfg &&
  shipping_passes (combined it.title it.desc) cfg &&
  terms_pass it.title it.desc cfg

/-- The accept decision of `run_once` in `mode_a_bot_v2.py` (same guard
order, v2 predicates). -/
def accept_v2 (cfg : RuleSet) (it : Item) : Bool :=
  in_model_range_v2 it.title cfg.models &&
  price_ok_v2 it.price cfg &&
  shipping_passes_v2 (combined it.title it.desc) cfg &&
  terms_pass_v2 it.title it.desc cfg

/-- The accept decision of `bot_loop` in `mode_a_bot_web.py`: same
predicates as v2 but `terms_pass` is checked before `shipping_passes`. -/
def accept_web (cfg : RuleSet) (it : Item) : Bool :=
  in_model_range_v2 it.title cfg.models &&
  price_ok_v2 it.price cfg &&
  terms_pass_v2 it.title it.desc cfg &&
  shipping_passes_v2 (combined it.title it.desc) cfg

/-- A rule set with no constraints configured: no models, no term groups,
no exclusions, no shipping requirement, and no price bounds. -/
def emptyRules : RuleSet :=
  { models := []
    price_min := none
    price_max := none
    require_shipping := false
    shipping_positive := []
    shipping_negative := []
    terms_any := []
    terms_exclude := []
    search_interval_seconds := none }

/-! ### The price extractor

`parse_price` (identical in the three variants) replaces no-break spaces by
plain spaces and runs `re.search(r"(\d[\d\s]{0,6})\s*€", text)`.  The
regex engine is embedded for this one pattern: `re.search` tries start
positions left to right; at a position the `\d` must match, then the greedy
`[\d\s]{0,6}` tries the longest repetition first and backtracks; `\s*€`
after it succeeds exactly when the first non-whitespace character from the
current position is `€` (backtracking inside `\s*` cannot help because `€`
is not whitespace).  The captured group is then fed to
`int(group.replace(" ", ""))` under `except: return None`. -/

/-- The character class `[\d\s]`. -/
def classDS (c : Char) : Bool := pyDigit c || pySpace c

/-- Does `\s*€` match at the head of `l`? -/
def tailMatches (l : List Char) : Bool :=
  match l.dropWhile pySpace with
  | c :: _ => c == '€'
  | [] => false

/-- Match `[\d\s]{0,fuel}\s*€` at `l`, longest repetition first, returning
the characters the repetition consumed. -/
def matchBody : Nat → List Char → Option (List Char)
  | 0, l => if tailMatches l then some [] else none
  | fuel + 1, l =>
    match l with
    | [] => if tailMatches ([] : List Char) then some [] else none
    | c :: rest =>
      if classDS c then
        match matchBody fuel rest with
        | some g => some (c :: g)
        | none => if tailMatches (c :: rest) then some [] else none
      else if tailMatches (c :: rest) then some [] else none

/-- `re.search` for the price pattern: first start position (scanning left
to right) whose match attempt succeeds; returns capture group 1. -/
def searchGroup : List Char → Option (List Char)
  | [] => none
  | c :: rest =>
    if pyDigit c then
      match matchBody 6 rest with
      | some g => some (c :: g)
      | none => searchGroup rest
    else searchGroup rest

/-- Numeric value of a digit string (as Python's `int` reads it). -/
def digitsToNat (l : List Char) : Nat :=
  l.foldl (fun a c => 10 * a + (c.toNat - 48)) 0

/-- Python's `int()` on the domain it receives here (digits and whitespace):
surrounding whitespace is stripped; the rest must be a non-empty digit run,
otherwise `ValueError` (mapped to `none` by the caller's bare `except`). -/
def pyIntOfString (l : List Char) : Option Nat :=
  let t := stripWs l
  if t.isEmpty then none
  else if t.all pyDigit then some (digitsToNat t) else none

/-- `text.replace("\xa0", " ")`, per character. -/
def replaceNbsp (c : Char) : Char :=
  if c == Char.ofNat 160 then ' ' else c

/-- `parse_price` of `mode_a_bot.py` (identical in the other variants):
falsy input gives `None`; otherwise replace `\xa0` by a space, search for
the price pattern, and convert the captured group with spaces removed. -/
def parse_price (l : List Char) : Option Nat :=
  if l.isEmpty then none
  else
    let t := l.map replaceNbsp
    match searchGroup t with
    | some g => pyIntOfString (g.filter fun c => c != ' ')
    | none => none

/-! ### The poll loop

`run_once` is embedded over the list of raw records the fetchers returned
(the fetchers themselves are external collaborators; per-URL fetch failures
are caught inside `run_once` and only shrink this list).  The fingerprint
`sha1(url).hexdigest()` enters as an arbitrary function `fp` — every
theorem below holds for any deterministic digest.  `send_telegram` never
raises (its body is wrapped in `try/except`); the outcome of the delivery
attempt enters as an oracle `dres` and the emitted notification records the
pair (url, delivery outcome).  The seen set is the list of fingerprints. -/

/-- The in-memory seen set. -/
abbrev Seen := List (List Char)

/-- One iteration of the filter-and-notify loop body of `run_once` for a
single raw record: skip if the fingerprint is already seen; skip if any of
the four predicates rejects; otherwise dispatch the notification and mark
the fingerprint seen (`seen.add(fid)` runs after `send_telegram` returns,
whether or not delivery succeeded). -/
def stepItem (fp : List Char → List Char) (dres : List Char → Bool)
    (cfg : RuleSet) (st : Seen) (it : Item) : Seen × List (List Char × Bool) :=
  let fid := fp it.url
  if fid ∈ st then (st, [])
  else if accept_v1 cfg it then (fid :: st, [(it.url, dres it.url)])
  else (st, [])

/-- The filter-and-notify loop of `run_once` over the fetched records in
order, threading the seen set and collecting the dispatched notifications. -/
def run_once (fp : List Char → List Char) (dres : List Char → Bool)
    (cfg : RuleSet) : Seen → List Item → Seen × List (List Char × Bool)
  | st, [] => (st, [])
  | st, it :: rest =>
    let r1 := stepItem fp dres cfg st it
    let r2 := run_once fp dres cfg r1.1 rest
    (r2.1, r1.2 ++ r2.2)

/-- A whole run of the poll loop: a sequence of cycles, each with the rule
set freshly reloaded for that cycle and the raw records its fetchers
produced, threading the process-lifetime seen set. -/
def runCycles (fp : List Char → List Char) (dres : List Char → Bool) :
    List (RuleSet × List Item) → Seen → Seen × List (List Char × Bool)
  | [], st => (st, [])
  | (cfg, items) :: rest, st =>
    let r1 := run_once fp dres cfg st items
    let r2 := runCycles fp dres rest r1.1
    (r2.1, r1.2 ++ r2.2)

/-! ### The outer loop of `main` / `bot_loop`

Startup: `os.getenv` yields `None` or a string; a missing or empty
credential is falsy and raises `RuntimeError` before the loop starts.
Each iteration of `while True` runs the cycle body under
`except Exception`: the body either completes (yielding the fetched
records under the freshly loaded rule set, then sleeping
`int(cfg.get("search_interval_seconds", 180))`) or raises (configuration
reload failure or any other error), in which case the handler logs,
attempts a best-effort alert (itself under a bare `except: pass`) and
sleeps a fixed 120 seconds; either way the loop continues with the next
iteration.  One iteration's environment is an `Except`: `.error` is a
raising body, `.ok` a completing one. -/

/-- The startup credential check of all three variants. -/
def startup (token chatId : Option (List Char)) : Except (List Char) Unit :=
  if (token.getD []).isEmpty || (chatId.getD []).isEmpty then
    .error "Missing env vars: TELEGRAM_BOT_TOKEN, TELEGRAM_CHAT_ID".toList
  else .ok ()

/-- The cycle body (`load_cfg`; `run_once`; compute the success-path sleep):
it propagates whatever the environment raised. -/
def cycleBody (fp : List Char → List Char) (dres : List Char → Bool)
    (st : Seen) (ev : Except (List Char) (RuleSet × List Item)) :
    Except (List Char) (Seen × Int) :=
  match ev with
  | .error e => .error e
  | .ok (cfg, items) =>
    .ok ((run_once fp dres cfg st items).1,
      cfg.search_interval_seconds.getD 180)

/-- One `while True` iteration: the body under `except Exception` — on an
error the state is kept, the alert is attempted (third component) and the
sleep is the fixed 120-second cooldown. -/
def loopStep (fp : List Char → List Char) (dres : List Char → Bool)
    (st : Seen) (ev : Except (List Char) (RuleSet × List Item)) :
    Seen × Int × Bool :=
  match cycleBody fp dres st ev with
  | .ok r => (r.1, r.2, false)
  | .error _ => (st, 120, true)

/-- The loop over a finite schedule of iteration environments, collecting
the sleep performed after each iteration. -/
def mainRun (fp : List Char → List Char) (dres : List Char → Bool) :
    List (Except (List Char) (RuleSet × List Item)) → Seen → Seen × List Int
  | [], st => (st, [])
  | ev :: rest, st =>
    let r1 := loopStep fp dres st ev
    let r2 := mainRun fp dres rest r1.1
    (r2.1, r1.2.1 :: r2.2)

/-- The whole process entry of `mode_a_bot.py`: the credential check runs
when the module loads (lines 17-20); `main()` then runs an *unprotected* prelude
before the `while True` loop — `cfg = load_cfg()` (line 181) and the raw
startup `bot.send_message(...)` (line 183), neither under any `try/except`
— so a failure of either crashes the process even with credentials present.
Only after the prelude does the protected loop of `mainRun` start, with the
fresh empty seen set of line 182.  (`cfg0` is the outcome of the pre-loop
configuration load, whose value is otherwise unused — the loop reloads it —
and `send0` the outcome of the startup notification.  In `mode_a_bot_v2.py`
and `mode_a_bot_web.py` the pre-loop notification goes through
`tg_send_message`, which swallows its own errors, and the first `load_cfg`
happens inside the `try`, so this prelude fragility is specific to v1.) -/
def mainV1 (fp : List Char → List Char) (dres : List Char → Bool)
    (token chatId : Option (List Char))
    (cfg0 : Except (List Char) RuleSet)
    (send0 : Except (List Char) Unit)
    (evs : List (Except (List Char) (RuleSet × List Item))) :
    Except (List Char) (Seen × List Int) :=
  match startup token chatId with
  | .error e => .error e
  | .ok _ =>
    match cfg0 with
    | .error e => .error e
    | .ok _ =>
      match send0 with
      | .error e => .error e
      | .ok _ => .ok (mainRun fp dres evs [])

/-! ### Fixtures for witnesses and counterexamples -/

/-- A rule set with only an upper price bound configured. -/
def maxOnlyRules : RuleSet :=
  { emptyRules with price_max := some 50 }

/-- A listing whose parsed price exceeds that upper bound. -/
def dearItem : Item :=
  { title := [], desc := [], price := some 100, url := ['u'] }

/-- A rule set excluding the term `"b"`. -/
def excludeBRules : RuleSet :=
  { emptyRules with terms_exclude := [['b']] }

/-- A rule set requiring the model string `"x"`. -/
def modelXRules : RuleSet :=
  { emptyRules with models := [['x']] }

/-- A listing matching nothing in particular. -/
def itemA : Item :=
  { title := ['a'], desc := [], price := none, url := ['a'] }

/-! ### Lemmas and theorems -/

/-! ### Character-level facts used by the idempotence proof -/

lemma toLowerChar_of_upper {c : Char} (h : 65 ≤ c.toNat ∧ c.toNat ≤ 90) :
    (toLowerChar c).toNat = c.toNat + 32 := by
  unfold toLowerChar
  rw [dif_pos h]
  rfl

lemma toLowerChar_of_not_upper {c : Char} (h : ¬(65 ≤ c.toNat ∧ c.toNat ≤ 90)) :
    toLowerChar c = c := by
  unfold toLowerChar
  rw [dif_neg h]

lemma toLowerChar_idem (c : Char) : toLowerChar (toLowerChar c) = toLowerChar c := by
  by_cases h : 65 ≤ c.toNat ∧ c.toNat ≤ 90
  · have h2 := toLowerChar_of_upper h
    exact toLowerChar_of_not_upper (by omega)
  · simp [toLowerChar_of_not_upper h]

lemma pySpace_toLowerChar (c : Char) : pySpace (toLowerChar c) = pySpace c := by
  by_cases h : 65 ≤ c.toNat ∧ c.toNat ≤ 90
  · have h2 := toLowerChar_of_upper h
    simp only [pySpace, decide_eq_decide, h2]
    unfold pySpaceP
    omega
  · rw [toLowerChar_of_not_upper h]

lemma toLowerChar_ascii {c : Char} (h : c.toNat < 128) : (toLowerChar c).toNat < 128 := by
  by_cases hu : 65 ≤ c.toNat ∧ c.toNat ≤ 90
  · rw [toLowerChar_of_upper hu]; omega
  · rw [toLowerChar_of_not_upper hu]; exact h

lemma nfkdAscii_of_ascii {c : Char} (h : c.toNat < 128) : nfkdAscii c = [c] := by
  simp [nfkdAscii, h]

lemma mem_nfkdAscii_ascii {c d : Char} (h : d ∈ nfkdAscii c) : d.toNat < 128 := by
  unfold nfkdAscii at h
  split at h
  · next hc =>
      simp only [List.mem_singleton] at h
      exact h ▸ hc
  · exact of_decide_eq_true (List.mem_filter.mp h).2

lemma asciiFold_ascii (l : List Char) : ∀ d ∈ asciiFold l, d.toNat < 128 := by
  induction l with
  | nil => simp [asciiFold]
  | cons c r ih =>
    intro d hd
    simp only [asciiFold, List.mem_append] at hd
    rcases hd with h | h
    · exact mem_nfkdAscii_ascii h
    · exact ih d h

lemma asciiFold_id (l : List Char) (h : ∀ d ∈ l, d.toNat < 128) : asciiFold l = l := by
  induction l with
  | nil => rfl
  | cons c r ih =>
    simp only [asciiFold]
    rw [nfkdAscii_of_ascii (h c (by simp)), ih (fun d hd => h d (by simp [hd]))]
    rfl

lemma map_toLowerChar_eq_self {l : List Char} (h : ∀ d ∈ l, toLowerChar d = d) :
    l.map toLowerChar = l := by
  induction l with
  | nil => rfl
  | cons c r ih =>
    simp only [List.map_cons, h c (by simp)]
    rw [ih (fun d hd => h d (by simp [hd]))]

lemma mem_dropWhile {d : Char} {p : Char → Bool} :
    ∀ {l : List Char}, d ∈ l.dropWhile p → d ∈ l := by
  intro l
  induction l with
  | nil => simp
  | cons a t ih =>
    rw [List.dropWhile_cons]
    cases hp : p a
    · simp
    · intro h
      exact List.mem_cons_of_mem a (ih h)

lemma headNS_dropWhile (l : List Char) : headNS (l.dropWhile pySpace) := by
  induction l with
  | nil => trivial
  | cons c r ih =>
    rw [List.dropWhile_cons]
    cases hc : pySpace c
    · rw [if_neg Bool.false_ne_true]
      exact hc
    · rw [if_pos rfl]
      exact ih

lemma dropWhile_eq_self_of_headNS {l : List Char} (h : headNS l) :
    l.dropWhile pySpace = l := by
  cases l with
  | nil => rfl
  | cons c r =>
    have hc : pySpace c = false := h
    rw [List.dropWhile_cons, hc]
    simp

lemma stripWs_eq_self {l : List Char} (h1 : headNS l) (h2 : lastNS l) :
    stripWs l = l := by
  unfold stripWs
  rw [dropWhile_eq_self_of_headNS h1, dropWhile_eq_self_of_headNS h2,
    List.reverse_reverse]

lemma dropWhile_append_one (p : Char → Bool) (c : Char) : ∀ x : List Char,
    List.dropWhile p (x ++ [c]) =
      if x.dropWhile p = [] then List.dropWhile p [c] else x.dropWhile p ++ [c] := by
  intro x
  induction x with
  | nil => simp
  | cons a t ih =>
    rw [List.cons_append, List.dropWhile_cons, List.dropWhile_cons]
    cases ha : p a
    · simp
    · simpa using ih

lemma headNS_stripWs (l : List Char) : headNS (stripWs l) := by
  unfold stripWs
  have hns : headNS (l.dropWhile pySpace) := headNS_dropWhile l
  generalize hA : l.dropWhile pySpace = a at hns ⊢
  cases a with
  | nil => simp [headNS]
  | cons c r =>
    have hc : pySpace c = false := hns
    rw [List.reverse_cons, dropWhile_append_one]
    by_cases he : r.reverse.dropWhile pySpace = []
    · rw [if_pos he]
      simp [List.dropWhile_cons, hc, headNS]
    · rw [if_neg he, List.reverse_append]
      simpa [headNS] using hc

lemma lastNS_stripWs (l : List Char) : lastNS (stripWs l) := by
  unfold lastNS stripWs
  rw [List.reverse_reverse]
  exact headNS_dropWhile _

/-! ### Facts about whitespace-run collapsing -/

lemma headNS_append_left {y z : List Char} (hy : y ≠ []) :
    headNS (y ++ z) ↔ headNS y := by
  cases y with
  | nil => exact absurd rfl hy
  | cons a t => exact Iff.rfl

lemma lastNS_cons {c : Char} {r : List Char} (hr : r ≠ []) :
    lastNS (c :: r) ↔ lastNS r := by
  unfold lastNS
  rw [List.reverse_cons, headNS_append_left (by simpa using hr)]

lemma collapseAux_headNS_true (l : List Char) : headNS (collapseAux l true) := by
  induction l with
  | nil => trivial
  | cons c r ih =>
    cases hc : pySpace c
    · simp only [collapseAux, hc, Bool.false_eq_true, if_false]
      exact hc
    · simpa [collapseAux, hc] using ih

lemma headNS_collapseAux {l : List Char} (h : headNS l) :
    headNS (collapseAux l false) := by
  cases l with
  | nil => trivial
  | cons c r =>
    have hc : pySpace c = false := h
    simp only [collapseAux, hc, Bool.false_eq_true, if_false]
    exact hc

lemma collapseAux_true_eq_false {l : List Char} (h : headNS l) :
    collapseAux l true = collapseAux l false := by
  cases l with
  | nil => rfl
  | cons c r =>
    have hc : pySpace c = false := h
    simp [collapseAux, hc]

lemma collapseAux_idem (l : List Char) :
    ∀ b, collapseAux (collapseAux l b) false = collapseAux l b := by
  induction l with
  | nil => intro b; rfl
  | cons c r ih =>
    intro b
    cases hc : pySpace c
    · simp only [collapseAux, hc, Bool.false_eq_true, if_false]
      rw [ih false]
    · cases b
      · have hsp : pySpace ' ' = true := by decide
        have hx : headNS (collapseAux r true) := collapseAux_headNS_true r
        rw [show collapseAux (c :: r) false = ' ' :: collapseAux r true by
              simp [collapseAux, hc]]
        rw [show collapseAux (' ' :: collapseAux r true) false
              = ' ' :: collapseAux (collapseAux r true) true by
              simp [collapseAux, hsp]]
        rw [collapseAux_true_eq_false hx, ih true]
      · rw [show collapseAux (c :: r) true = collapseAux r true by
              simp [collapseAux, hc]]
        exact ih true

lemma mem_collapseAux {d : Char} :
    ∀ {l : List Char} {b : Bool}, d ∈ collapseAux l b → d ∈ l ∨ d = ' ' := by
  intro l
  induction l with
  | nil =>
    intro b h
    have hnil : collapseAux ([] : List Char) b = [] := rfl
    rw [hnil] at h
    exact absurd h (List.not_mem_nil d)
  | cons c r ih =>
    intro b h
    cases hc : pySpace c <;> rw [collapseAux] at h <;> rw [hc] at h
    · simp only [Bool.false_eq_true, if_false, List.mem_cons] at h
      rcases h with h | h
      · exact Or.inl (by simp [h])
      · rcases ih h with h2 | h2
        · exact Or.inl (by simp [h2])
        · exact Or.inr h2
    · rw [if_pos rfl] at h
      cases b
      · rw [if_neg Bool.false_ne_true] at h
        simp only [List.mem_cons] at h
        rcases h with h | h
        · exact Or.inr h
        · rcases ih h with h2 | h2
          · exact Or.inl (by simp [h2])
          · exact Or.inr h2
      · rw [if_pos rfl] at h
        rcases ih h with h2 | h2
        · exact Or.inl (by simp [h2])
        · exact Or.inr h2

lemma collapseAux_ne_nil :
    ∀ {l : List Char}, l ≠ [] → lastNS l → ∀ b, collapseAux l b ≠ [] := by
  intro l
  induction l with
  | nil => intro h; exact absurd rfl h
  | cons c r ih =>
    intro _ hlast b
    by_cases hrne : r = []
    · subst hrne
      have hc : pySpace c = false := hlast
      simp [collapseAux, hc]
    · have hlr : lastNS r := (lastNS_cons hrne).mp hlast
      cases hc : pySpace c
      · simp [collapseAux, hc]
      · cases b
        · simp [collapseAux, hc]
        · simpa [collapseAux, hc] using ih hrne hlr true

lemma lastNS_collapseAux :
    ∀ {l : List Char}, lastNS l → ∀ b, lastNS (collapseAux l b) := by
  intro l
  induction l with
  | nil => intro _ b; trivial
  | cons c r ih =>
    intro hlast b
    by_cases hrne : r = []
    · subst hrne
      have hc : pySpace c = false := hlast
      simpa [collapseAux, hc] using hlast
    · have hlr : lastNS r := (lastNS_cons hrne).mp hlast
      cases hc : pySpace c
      · have hx : collapseAux r false ≠ [] := collapseAux_ne_nil hrne hlr false
        simp only [collapseAux, hc, Bool.false_eq_true, if_false]
        exact (lastNS_cons hx).mpr (ih hlr false)
      · have hx : collapseAux r true ≠ [] := collapseAux_ne_nil hrne hlr true
        cases b
        · simp only [collapseAux, hc, if_pos rfl]
          exact (lastNS_cons hx).mpr (ih hlr true)
        · simp only [collapseAux, hc, if_pos rfl]
          exact ih hlr true

lemma mem_stripWs {d : Char} {l : List Char} (h : d ∈ stripWs l) : d ∈ l := by
  unfold stripWs at h
  rw [List.mem_reverse] at h
  have h1 := mem_dropWhile h
  rw [List.mem_reverse] at h1
  exact mem_dropWhile h1

lemma headNS_map_toLower {l : List Char} (h : headNS l) :
    headNS (l.map toLowerChar) := by
  cases l with
  | nil => trivial
  | cons c r =>
    have hc : pySpace c = false := h
    show pySpace (toLowerChar c) = false
    rw [pySpace_toLowerChar]
    exact hc

lemma lastNS_map_toLower {l : List Char} (h : lastNS l) :
    lastNS (l.map toLowerChar) := by
  unfold lastNS
  rw [← List.map_reverse]
  exact headNS_map_toLower h

lemma normalize_ne_nil_eq {l : List Char} (h : l ≠ []) :
    normalize l = collapseWs ((stripWs (asciiFold l)).map toLowerChar) := by
  unfold normalize
  rw [if_neg h]

/-- C3: `normalize` is idempotent — applying it to its own output returns
that output unchanged.  (It is pure by construction in this embedding: the
result is a function of the input string alone.) -/
theorem normalize_idempotent (l : List Char) :
    normalize (normalize l) = normalize l := by
  by_cases h0 : l = []
  · subst h0; rfl
  · have ht := normalize_ne_nil_eq h0
    by_cases h1 : normalize l = []
    · rw [h1]
      simp [normalize]
    · rw [normalize_ne_nil_eq h1]
      have hmem : ∀ d ∈ normalize l, d.toNat < 128 ∧ toLowerChar d = d := by
        intro d hd
        rw [ht] at hd
        rcases mem_collapseAux hd with hu | hsp
        · rcases List.mem_map.mp hu with ⟨e, he, hde⟩
          have he2 : e ∈ asciiFold l := mem_stripWs he
          have hea : e.toNat < 128 := asciiFold_ascii l e he2
          subst hde
          exact ⟨toLowerChar_ascii hea, toLowerChar_idem e⟩
        · subst hsp
          exact ⟨by decide, toLowerChar_of_not_upper (by decide)⟩
      have hfold : asciiFold (normalize l) = normalize l :=
        asciiFold_id _ (fun d hd => (hmem d hd).1)
      have hhead : headNS (normalize l) := by
        rw [ht]
        exact headNS_collapseAux (headNS_map_toLower (headNS_stripWs _))
      have hlast : lastNS (normalize l) := by
        rw [ht]
        exact lastNS_collapseAux (lastNS_map_toLower (lastNS_stripWs _)) false
      rw [hfold, stripWs_eq_self hhead hlast,
        map_toLowerChar_eq_self (fun d hd => (hmem d hd).2), ht]
      exact collapseAux_idem _ false

/-! ### Permissive defaults, unknown price, exclusion dominance -/

/-- C2: a rule set with no constraints configured — empty `models`,
`terms_any` and `terms_exclude`, `require_shipping` false, and no price
bounds — accepts every listing: all four predicates return `true` for any
title, description and price, so the listing is accepted. -/
theorem emptyRules_accepts_all (title desc url : List Char) (price : Option Nat) :
    in_model_range title emptyRules.models = true ∧
    price_ok price emptyRules = true ∧
    shipping_passes (combined title desc) emptyRules = true ∧
    terms_pass title desc emptyRules = true ∧
    accept_v1 emptyRules { title := title, desc := desc, price := price, url := url } = true := by
  have h2 : price_ok price emptyRules = true := by cases price <;> rfl
  have h5 : accept_v1 emptyRules { title := title, desc := desc, price := price, url := url } = true := by
    cases price <;> rfl
  exact ⟨rfl, h2, rfl, rfl, h5⟩

/-- C4: an unknown price (`None`) passes the price-band predicate of every
variant under every configuration. -/
theorem price_ok_unknown (cfg : RuleSet) :
    price_ok none cfg = true ∧ price_ok_v2 none cfg = true :=
  ⟨rfl, rfl⟩

/-- C5: exclusion dominance — whenever some configured excluded term occurs
(normalized) in the normalized combined title+description, `terms_pass`
returns `false`, regardless of the `terms_any` groups and of `models`. -/
theorem terms_exclude_dominates (title desc : List Char) (cfg : RuleSet)
    (ex : List Char) (hmem : ex ∈ cfg.terms_exclude)
    (hsub : containsSub (normalize ex) (normalize (combined title desc)) = true) :
    terms_pass title desc cfg = false := by
  have hany : (cfg.terms_exclude.any fun term =>
      containsSub (normalize term) (normalize (combined title desc))) = true :=
    List.any_eq_true.mpr ⟨ex, hmem, hsub⟩
  have hne : cfg.terms_exclude.isEmpty = false := by
    cases h : cfg.terms_exclude with
    | nil => rw [h] at hmem; exact absurd hmem (List.not_mem_nil ex)
    | cons a t => rfl
  simp only [terms_pass]
  rw [hne, if_neg Bool.false_ne_true, hany]
  simp

theorem terms_exclude_dominates_witness :
    terms_pass ('a' :: 'b' :: []) [] excludeBRules = false :=
  terms_exclude_dominates ('a' :: 'b' :: []) [] excludeBRules ['b']
    (by decide) (by decide)

/-! ### Equivalence of the three variants (C6) -/

lemma in_model_range_eq (title : List Char) (models : List (List Char)) :
    in_model_range title models = in_model_range_v2 title models := by
  unfold in_model_range in_model_range_v2
  by_cases h : models.isEmpty <;> simp [h]

lemma any_map_normalize (l : List (List Char)) (t : List Char) :
    ((l.map normalize).any fun w => containsSub w t) =
      l.any fun w => containsSub (normalize w) t := by
  induction l with
  | nil => rfl
  | cons a r ih => simp [List.any_cons, ih]

lemma isEmpty_map_eq (l : List (List Char)) (f : List Char → List Char) :
    (l.map f).isEmpty = l.isEmpty := by
  cases l <;> rfl

lemma shipping_passes_eq (text : List Char) (cfg : RuleSet) :
    shipping_passes text cfg = shipping_passes_v2 text cfg := by
  unfold shipping_passes shipping_passes_v2
  cases hr : cfg.require_shipping
  · simp
  · simp [isEmpty_map_eq, any_map_normalize, Function.comp_def]

lemma terms_pass_eq (title desc : List Char) (cfg : RuleSet) :
    terms_pass title desc cfg = terms_pass_v2 title desc cfg := by
  unfold terms_pass terms_pass_v2
  simp [isEmpty_map_eq, any_map_normalize, Function.comp_def]

lemma price_ok_eq (price : Option Nat) (cfg : RuleSet)
    (hcfg : cfg.price_min ≠ none ∨ cfg.price_max = none)
    (hsz : ∀ n, price = some n → (n : Int) ≤ 1000000000) :
    price_ok price cfg = price_ok_v2 price cfg := by
  unfold price_ok price_ok_v2
  cases price with
  | none => rfl
  | some p =>
    have hp : (p : Int) ≤ 1000000000 := hsz p rfl
    have hnn : (0 : Int) ≤ (p : Int) := by omega
    cases hmin : cfg.price_min with
    | none =>
      cases hmax : cfg.price_max with
      | none => simp [Option.getD, hnn, hp]
      | some hi =>
        rcases hcfg with h | h
        · exact absurd hmin h
        · rw [hmax] at h
          exact absurd h (by simp)
    | some lo =>
      cases hmax : cfg.price_max with
      | none =>
        by_cases hlt : (p : Int) < lo
        · simp [Option.getD, hlt, show ¬(lo ≤ (p : Int)) from by omega]
        · simp [Option.getD, hlt, show lo ≤ (p : Int) from by omega, hp]
      | some hi =>
        by_cases hlt : (p : Int) < lo
        · simp [Option.getD, hlt, show ¬(lo ≤ (p : Int)) from by omega]
        · simp [Option.getD, hlt, show lo ≤ (p : Int) from by omega]

/-- C6 (amended): the three variants' accept/reject decisions coincide on
every listing whose price is absent or within the extractor's range
(≤ 10^9), provided the configuration does not set `price_max` while leaving
`price_min` unset.  (Without that proviso variant 1's `cfg["price_min"]`
lookup raises `KeyError` and passes the listing, while v2/web enforce the
configured `price_max`; see the counterexample.)  In particular the web
variant's different predicate order is irrelevant. -/
theorem variants_equivalent (cfg : RuleSet) (it : Item)
    (hcfg : cfg.price_min ≠ none ∨ cfg.price_max = none)
    (hsz : ∀ n, it.price = some n → (n : Int) ≤ 1000000000) :
    accept_v1 cfg it = accept_v2 cfg it ∧ accept_v2 cfg it = accept_web cfg it := by
  constructor
  · unfold accept_v1 accept_v2
    rw [in_model_range_eq, price_ok_eq it.price cfg hcfg hsz,
      shipping_passes_eq, terms_pass_eq]
  · unfold accept_v2 accept_web
    cases h1 : terms_pass_v2 it.title it.desc cfg <;>
      cases h2 : shipping_passes_v2 (combined it.title it.desc) cfg <;>
      simp [h1, h2]

theorem variants_equivalent_witness :
    accept_v1 emptyRules itemA = accept_v2 emptyRules itemA ∧
    accept_v2 emptyRules itemA = accept_web emptyRules itemA :=
  variants_equivalent emptyRules itemA (Or.inr rfl)
    (by intro n h; simp [itemA] at h)

/-- C6 counterexample: with only `price_max := 50` configured and a listing
priced 100, variant 1 accepts (the `cfg["price_min"]` lookup raises and the
bare `except` returns `True`) while v2/web reject — the variants are not
externally equivalent on every configuration. -/
theorem variants_divergence :
    accept_v1 maxOnlyRules dearItem = true ∧
    accept_v2 maxOnlyRules dearItem = false ∧
    accept_web maxOnlyRules dearItem = false := by
  refine ⟨?_, ?_, ?_⟩ <;> decide

/-! ### Deduplication: at most one notification per URL -/

lemma run_once_spec (fp : List Char → List Char) (dres : List Char → Bool)
    (cfg : RuleSet) (url : List Char) :
    ∀ (items : List Item) (st : Seen),
      (∀ f ∈ st, f ∈ (run_once fp dres cfg st items).1) ∧
      (run_once fp dres cfg st items).2.countP (fun p => p.1 == url) ≤ 1 ∧
      (fp url ∈ st → (run_once fp dres cfg st items).2.countP (fun p => p.1 == url) = 0) ∧
      (1 ≤ (run_once fp dres cfg st items).2.countP (fun p => p.1 == url) →
        fp url ∈ (run_once fp dres cfg st items).1) := by
  intro items
  induction items with
  | nil =>
    intro st
    refine ⟨fun f hf => hf, ?_, fun _ => ?_, ?_⟩ <;> simp [run_once]
  | cons it rest ih =>
    intro st
    by_cases hseen : fp it.url ∈ st
    · have hstep : stepItem fp dres cfg st it = (st, []) := by
        simp [stepItem, hseen]
      simp only [run_once, hstep]
      simpa using ih st
    · by_cases hacc : accept_v1 cfg it = true
      · have hstep : stepItem fp dres cfg st it =
            (fp it.url :: st, [(it.url, dres it.url)]) := by
          simp [stepItem, hseen, hacc]
        simp only [run_once, hstep]
        obtain ⟨s1, s2, s3, s4⟩ := ih (fp it.url :: st)
        by_cases hq : it.url = url
        · have hfpm : fp url ∈ fp it.url :: st := by rw [hq]; exact List.mem_cons_self _ _
          have hz : (run_once fp dres cfg (fp it.url :: st) rest).2.countP
              (fun p => p.1 == url) = 0 := s3 hfpm
          refine ⟨?_, ?_, ?_, ?_⟩
          · intro f hf
            exact s1 f (List.mem_cons_of_mem _ hf)
          · rw [List.singleton_append, List.countP_cons, hz]
            split <;> omega
          · intro hmem
            exact absurd (hq ▸ hmem) hseen
          · intro _
            exact s1 _ hfpm
        · have hqf : (it.url == url) = false := by
            simp [hq]
          refine ⟨?_, ?_, ?_, ?_⟩
          · intro f hf
            exact s1 f (List.mem_cons_of_mem _ hf)
          · simpa [List.countP_cons, hqf] using s2
          · intro hmem
            simpa [List.countP_cons, hqf] using s3 (List.mem_cons_of_mem _ hmem)
          · intro h1
            refine s4 ?_
            simpa [List.countP_cons, hqf] using h1
      · have hstep : stepItem fp dres cfg st it = (st, []) := by
          simp [stepItem, hseen, hacc]
        simp only [run_once, hstep]
        simpa using ih st

lemma runCycles_spec (fp : List Char → List Char) (dres : List Char → Bool)
    (url : List Char) :
    ∀ (cs : List (RuleSet × List Item)) (st : Seen),
      (∀ f ∈ st, f ∈ (runCycles fp dres cs st).1) ∧
      (runCycles fp dres cs st).2.countP (fun p => p.1 == url) ≤ 1 ∧
      (fp url ∈ st → (runCycles fp dres cs st).2.countP (fun p => p.1 == url) = 0) ∧
      (1 ≤ (runCycles fp dres cs st).2.countP (fun p => p.1 == url) →
        fp url ∈ (runCycles fp dres cs st).1) := by
  intro cs
  induction cs with
  | nil =>
    intro st
    refine ⟨fun f hf => hf, ?_, fun _ => ?_, ?_⟩ <;> simp [runCycles]
  | cons hd rest ih =>
    obtain ⟨cfg, items⟩ := hd
    intro st
    obtain ⟨r1, r2, r3, r4⟩ := run_once_spec fp dres cfg url items st
    obtain ⟨c1, c2, c3, c4⟩ := ih (run_once fp dres cfg st items).1
    simp only [runCycles, List.countP_append]
    refine ⟨?_, ?_, ?_, ?_⟩
    · intro f hf
      exact c1 f (r1 f hf)
    · by_cases h1 : 1 ≤ (run_once fp dres cfg st items).2.countP (fun p => p.1 == url)
      · have := c3 (r4 h1)
        omega
      · have := c2
        omega
    · intro hmem
      have hz1 := r3 hmem
      have hz2 := c3 (r1 _ hmem)
      omega
    · intro htot
      by_cases h1 : 1 ≤ (run_once fp dres cfg st items).2.countP (fun p => p.1 == url)
      · exact c1 _ (r4 h1)
      · exact c4 (by omega)

/-- C1: over a whole run of the poll loop — any sequence of cycles, each
with its own freshly loaded rule set and fetched records, starting from the
empty seen set — the notification sink is invoked at most once for any
given URL, for every fingerprint function and every pattern of delivery
successes and failures (the seen set is updated identically whether or not
delivery succeeded, so a failed delivery is never retried). -/
theorem notify_at_most_once (fp : List Char → List Char) (dres : List Char → Bool)
    (cs : List (RuleSet × List Item)) (url : List Char) :
    (runCycles fp dres cs []).2.countP (fun p => p.1 == url) ≤ 1 :=
  (runCycles_spec fp dres url cs []).2.1

/-- C10: frame property of the seen set.  A record that is already seen or
that fails the predicate conjunction leaves the seen set unchanged and
dispatches nothing — over a single record and over a whole cycle body; a
fingerprint is added exactly when the record passed all predicates and the
notification dispatch was attempted; and a previously rejected, still
unseen record is dispatched and marked once a (possibly later) rule set
accepts it. -/
theorem seen_frame (fp : List Char → List Char) (dres : List Char → Bool)
    (cfg cfg2 : RuleSet) (st : Seen) (it : Item) (items : List Item) :
    ((fp it.url ∈ st ∨ accept_v1 cfg it = false) →
      stepItem fp dres cfg st it = (st, [])) ∧
    ((∀ i ∈ items, fp i.url ∈ st ∨ accept_v1 cfg i = false) →
      run_once fp dres cfg st items = (st, [])) ∧
    (fp it.url ∉ st → accept_v1 cfg2 it = true →
      stepItem fp dres cfg2 st it = (fp it.url :: st, [(it.url, dres it.url)])) := by
  refine ⟨?_, ?_, ?_⟩
  · rintro (hseen | hrej)
    · simp [stepItem, hseen]
    · by_cases hseen : fp it.url ∈ st
      · simp [stepItem, hseen]
      · simp [stepItem, hseen, hrej]
  · intro hall
    induction items with
    | nil => rfl
    | cons i rest ihr =>
      have hstep : stepItem fp dres cfg st i = (st, []) := by
        rcases hall i (by simp) with hseen | hrej
        · simp [stepItem, hseen]
        · by_cases hseen : fp i.url ∈ st
          · simp [stepItem, hseen]
          · simp [stepItem, hseen, hrej]
      have hrest := ihr fun j hj => hall j (by simp [hj])
      simp only [run_once, hstep, hrest]
      rfl
  · intro hseen hacc
    simp [stepItem, hseen, hacc]

theorem seen_frame_witness :
    stepItem (fun u => u) (fun _ => true) modelXRules [] itemA = ([], []) ∧
    run_once (fun u => u) (fun _ => true) modelXRules [] [itemA] = ([], []) ∧
    stepItem (fun u => u) (fun _ => true) emptyRules [] itemA =
      ([['a']], [(['a'], true)]) :=
  ⟨(seen_frame (fun u => u) (fun _ => true) modelXRules emptyRules [] itemA [itemA]).1
      (Or.inr (by decide)),
   (seen_frame (fun u => u) (fun _ => true) modelXRules emptyRules [] itemA [itemA]).2.1
      (by intro i hi
          rw [List.mem_singleton] at hi
          subst hi
          exact Or.inr (by decide)),
   (seen_frame (fun u => u) (fun _ => true) modelXRules emptyRules [] itemA [itemA]).2.2
      (by simp) (by decide)⟩

/-! ### The outer loop: error containment and the cooldown -/

/-- C8 (amended): the *loop* never exits — for every schedule of iteration
environments, including any number of raising cycle bodies, the loop
performs one sleep per iteration, processes the entire schedule, and
attempts the best-effort alert on every raising iteration; but the fatal
conditions are not limited to missing credentials: the whole process run
of `mode_a_bot.py` succeeds exactly when the credentials are present *and*
the two unprotected pre-loop statements — the initial `load_cfg()` and the
startup notification — succeed (once the loop is entered, no schedule of
cycle-level failures ends the run); and the credential check itself fails
precisely when a credential is missing or empty. -/
theorem loop_never_exits (fp : List Char → List Char) (dres : List Char → Bool) :
    (∀ (evs : List (Except (List Char) (RuleSet × List Item))) (st : Seen),
      (mainRun fp dres evs st).2.length = evs.length) ∧
    (∀ (st : Seen) (e : List Char), (loopStep fp dres st (.error e)).2.2 = true) ∧
    (∀ (tok chat : Option (List Char)) (cfg0 : Except (List Char) RuleSet)
        (send0 : Except (List Char) Unit)
        (evs : List (Except (List Char) (RuleSet × List Item))),
      (∃ r, mainV1 fp dres tok chat cfg0 send0 evs = .ok r) ↔
        (startup tok chat = .ok () ∧ (∃ c, cfg0 = .ok c) ∧ send0 = .ok ())) ∧
    (∀ tok chat : Option (List Char),
      (∃ e, startup tok chat = .error e) ↔
        ((tok.getD []).isEmpty || (chat.getD []).isEmpty) = true) := by
  refine ⟨?_, fun _ _ => rfl, ?_, ?_⟩
  · intro evs
    induction evs with
    | nil => intro st; rfl
    | cons ev rest ihe =>
      intro st
      simp [mainRun, ihe]
  · intro tok chat cfg0 send0 evs
    unfold mainV1
    cases hst : startup tok chat with
    | error e => simp [hst]
    | ok u =>
      cases u
      cases cfg0 with
      | error e => simp
      | ok c =>
        cases send0 with
        | error e => simp
        | ok u2 =>
          cases u2
          simp
  · intro tok chat
    unfold startup
    by_cases h : ((tok.getD []).isEmpty || (chat.getD []).isEmpty) = true
    · simp [h]
    · simp [h]

/-- C8 counterexample: the claim's "the only fatal condition is missing
credentials at startup" is false of `mode_a_bot.py` — with both credentials
present (the startup check passes), a failing pre-loop `load_cfg()` makes
the process run end in an error, and so does a failing startup
notification; neither error path reaches the protected loop. -/
theorem startup_prelude_fatal :
    mainV1 (fun u => u) (fun _ => true) (some ['t']) (some ['c'])
        (.error "config missing".toList) (.ok ()) [] =
      .error "config missing".toList ∧
    mainV1 (fun u => u) (fun _ => true) (some ['t']) (some ['c'])
        (.ok emptyRules) (.error "network down".toList) [] =
      .error "network down".toList ∧
    startup (some ['t']) (some ['c']) = .ok () :=
  ⟨rfl, rfl, rfl⟩

/-- C9 (amended): after a cycle-level failure the loop sleeps a fixed 120 s
cooldown.  This is *shorter* than the success-path sleep for the default
configuration (`search_interval_seconds` absent defaults to 180 s); the
claimed "longer than the normal interval" holds only when the configured
interval is below 120 s. -/
theorem error_cooldown (fp : List Char → List Char) (dres : List Char → Bool)
    (st st2 : Seen) (e : List Char) (cfg : RuleSet) (items : List Item)
    (hdef : cfg.search_interval_seconds = none) :
    (loopStep fp dres st (.error e)).2.1 = 120 ∧
    (loopStep fp dres st2 (.ok (cfg, items))).2.1 = 180 ∧
    (loopStep fp dres st (.error e)).2.1 <
      (loopStep fp dres st2 (.ok (cfg, items))).2.1 := by
  have h2 : (loopStep fp dres st2 (.ok (cfg, items))).2.1 = 180 := by
    simp [loopStep, cycleBody, hdef]
  refine ⟨rfl, h2, ?_⟩
  rw [h2]
  norm_num [loopStep, cycleBody]

theorem error_cooldown_witness :
    (loopStep (fun u => u) (fun _ => true) [] (.error ['x'])).2.1 = 120 ∧
    (loopStep (fun u => u) (fun _ => true) []
      (.ok (emptyRules, ([] : List Item)))).2.1 = 180 ∧
    (loopStep (fun u => u) (fun _ => true) [] (.error ['x'])).2.1 <
      (loopStep (fun u => u) (fun _ => true) []
        (.ok (emptyRules, ([] : List Item)))).2.1 :=
  error_cooldown (fun u => u) (fun _ => true) [] [] ['x'] emptyRules [] rfl

/-- C9 counterexample: the claim as stated — the error-path cooldown is
longer than the normal poll-interval sleep — is false for the default
configuration: the cooldown is 120 s while the default success sleep is
180 s. -/
theorem error_cooldown_not_longer :
    ¬ ((loopStep (fun u => u) (fun _ => true) []
          (.ok (emptyRules, ([] : List Item)))).2.1 <
        (loopStep (fun u => u) (fun _ => true) [] (.error ['x'])).2.1) := by
  decide

/-! ### The price extractor: behaviour of the embedded regex search -/

lemma pySpace_of_pyDigit {c : Char} (h : pyDigit c = true) : pySpace c = false := by
  simp only [pyDigit, decide_eq_true_eq] at h
  simp only [pySpace, decide_eq_false_iff_not]
  unfold pySpaceP
  omega

lemma map_id_of_fixed {f : Char → Char} :
    ∀ {l : List Char}, (∀ c ∈ l, f c = c) → l.map f = l := by
  intro l
  induction l with
  | nil => intro _; rfl
  | cons c r ih =>
    intro h
    simp only [List.map_cons, h c (by simp)]
    rw [ih fun b hb => h b (by simp [hb])]

lemma dropWhile_pySpace_append {ws : List Char} (h : ∀ c ∈ ws, pySpace c = true)
    (x : List Char) :
    List.dropWhile pySpace (ws ++ x) = List.dropWhile pySpace x := by
  induction ws with
  | nil => rfl
  | cons w ws' ih =>
    rw [List.cons_append, List.dropWhile_cons, h w (by simp), if_pos rfl]
    exact ih fun c hc => h c (by simp [hc])

lemma tailMatches_ws {ws : List Char} (h : ∀ c ∈ ws, pySpace c = true)
    (post : List Char) : tailMatches (ws ++ '€' :: post) = true := by
  unfold tailMatches
  rw [dropWhile_pySpace_append h, List.dropWhile_cons,
    show pySpace '€' = false from by decide, if_neg Bool.false_ne_true]
  rfl

lemma matchBody_ws (post : List Char) :
    ∀ (ws : List Char) (fuel : Nat), (∀ c ∈ ws, pySpace c = true) →
      ∃ w1 w2, ws = w1 ++ w2 ∧
        matchBody fuel (ws ++ '€' :: post) = some w1 := by
  intro ws
  induction ws with
  | nil =>
    intro fuel h
    refine ⟨[], [], rfl, ?_⟩
    have ht : tailMatches ('€' :: post) = true := by
      simpa using @tailMatches_ws [] (by simp) post
    cases fuel with
    | zero => simp [matchBody, ht]
    | succ f =>
      have hc : classDS '€' = false := by decide
      simp [matchBody, hc, ht]
  | cons w ws' ih =>
    intro fuel h
    have hw : pySpace w = true := h w (by simp)
    have hws' : ∀ c ∈ ws', pySpace c = true := fun c hc => h c (by simp [hc])
    cases fuel with
    | zero =>
      refine ⟨[], w :: ws', rfl, ?_⟩
      have ht := tailMatches_ws h post
      simp only [List.cons_append] at ht
      simp [matchBody, ht]
    | succ f =>
      obtain ⟨w1, w2, hsplit, hmb⟩ := ih f hws'
      refine ⟨w :: w1, w2, by rw [hsplit]; rfl, ?_⟩
      have hcls : classDS w = true := by simp [classDS, hw]
      rw [List.cons_append]
      simp [matchBody, hcls, hmb]

lemma matchBody_group (post : List Char) (ws : List Char)
    (hws : ∀ c ∈ ws, pySpace c = true) :
    ∀ (g : List Char) (fuel : Nat), (∀ c ∈ g, classDS c = true) →
      g.length ≤ fuel →
      ∃ w1 w2, ws = w1 ++ w2 ∧
        matchBody fuel (g ++ (ws ++ '€' :: post)) = some (g ++ w1) := by
  intro g
  induction g with
  | nil =>
    intro fuel _ _
    obtain ⟨w1, w2, hsplit, hmb⟩ := matchBody_ws post ws fuel hws
    exact ⟨w1, w2, hsplit, by simpa using hmb⟩
  | cons c g' ih =>
    intro fuel hcls hlen
    cases fuel with
    | zero => simp at hlen
    | succ f =>
      obtain ⟨w1, w2, hsplit, hmb⟩ :=
        ih f (fun d hd => hcls d (by simp [hd])) (by simpa using hlen)
      refine ⟨w1, w2, hsplit, ?_⟩
      have hc : classDS c = true := hcls c (by simp)
      rw [List.cons_append]
      simp [matchBody, hc, hmb]

lemma searchGroup_skip {pre : List Char} (h : ∀ c ∈ pre, pyDigit c = false)
    (x : List Char) : searchGroup (pre ++ x) = searchGroup x := by
  induction pre with
  | nil => rfl
  | cons a t ih =>
    rw [List.cons_append]
    simp [searchGroup, h a (by simp), ih fun c hc => h c (by simp [hc])]

lemma searchGroup_found (d : Char) (hd : pyDigit d = true) (g ws post : List Char)
    (hg : ∀ c ∈ g, classDS c = true) (hws : ∀ c ∈ ws, pySpace c = true)
    (hlen : g.length ≤ 6) :
    ∃ w1 w2, ws = w1 ++ w2 ∧
      searchGroup (d :: (g ++ (ws ++ '€' :: post))) = some (d :: (g ++ w1)) := by
  obtain ⟨w1, w2, hsplit, hmb⟩ := matchBody_group post ws hws g 6 hg hlen
  exact ⟨w1, w2, hsplit, by simp [searchGroup, hd, hmb]⟩

lemma filter_group_digits {g : List Char}
    (hg : ∀ c ∈ g, pyDigit c = true ∨ c = ' ') :
    g.filter (fun c => c != ' ') = g.filter pyDigit := by
  induction g with
  | nil => rfl
  | cons c g' ih =>
    have ih2 := ih fun b hb => hg b (by simp [hb])
    rcases hg c (by simp) with h | h
    · have hne : (c != ' ') = true := by
        simp only [bne_iff_ne, ne_eq]
        intro hcc
        subst hcc
        exact absurd h (by decide)
      simp [List.filter_cons, hne, h, ih2]
    · subst h
      simp [List.filter_cons, ih2, show pyDigit ' ' = false from by decide]

lemma pyIntOfString_digits_ws (d : Char) (hd : pyDigit d = true)
    (gd : List Char) (hgd : ∀ c ∈ gd, pyDigit c = true)
    (w : List Char) (hw : ∀ c ∈ w, pySpace c = true) :
    pyIntOfString ((d :: gd) ++ w) = some (digitsToNat (d :: gd)) := by
  have hfront : List.dropWhile pySpace ((d :: gd) ++ w) = (d :: gd) ++ w :=
    dropWhile_eq_self_of_headNS (by
      show pySpace d = false
      exact pySpace_of_pyDigit hd)
  have hh : headNS (gd.reverse ++ [d]) := by
    cases hgr : gd.reverse with
    | nil =>
      show headNS ([d] : List Char)
      exact pySpace_of_pyDigit hd
    | cons c t =>
      have hcm : c ∈ gd := by
        rw [← List.mem_reverse, hgr]
        simp
      rw [List.cons_append]
      exact pySpace_of_pyDigit (hgd c hcm)
  have hstrip : stripWs ((d :: gd) ++ w) = d :: gd := by
    unfold stripWs
    rw [hfront, List.reverse_append, List.reverse_cons,
      dropWhile_pySpace_append (fun c hc => hw c (List.mem_reverse.mp hc)),
      dropWhile_eq_self_of_headNS hh, List.reverse_append, List.reverse_reverse]
    rfl
  unfold pyIntOfString
  rw [hstrip]
  have hall : (d :: gd).all pyDigit = true := by
    simp only [List.all_cons, hd, Bool.true_and]
    exact List.all_eq_true.mpr hgd
  simp [hall]

lemma euro_mem_of_tailMatches {l : List Char} (h : tailMatches l = true) :
    '€' ∈ l := by
  unfold tailMatches at h
  cases hdw : l.dropWhile pySpace with
  | nil => rw [hdw] at h; exact absurd h (by simp)
  | cons c t =>
    rw [hdw] at h
    have hc : c = '€' := by simpa using h
    subst hc
    exact mem_dropWhile (by rw [hdw]; exact List.mem_cons_self _ _)

lemma euro_mem_of_matchBody :
    ∀ (fuel : Nat) (l g : List Char), matchBody fuel l = some g → '€' ∈ l := by
  intro fuel
  induction fuel with
  | zero =>
    intro l g h
    rw [matchBody] at h
    by_cases ht : tailMatches l = true
    · exact euro_mem_of_tailMatches ht
    · rw [if_neg ht] at h
      exact absurd h (by simp)
  | succ f ihf =>
    intro l g h
    cases l with
    | nil =>
      rw [matchBody] at h
      exact absurd h (by simp [tailMatches])
    | cons c rest =>
      rw [matchBody] at h
      by_cases hc : classDS c = true
      · rw [if_pos hc] at h
        cases hmb : matchBody f rest with
        | some g' => exact List.mem_cons_of_mem c (ihf rest g' hmb)
        | none =>
          rw [hmb] at h
          by_cases ht : tailMatches (c :: rest) = true
          · exact euro_mem_of_tailMatches ht
          · rw [if_neg ht] at h
            exact absurd h (by simp)
      · rw [if_neg hc] at h
        by_cases ht : tailMatches (c :: rest) = true
        · exact euro_mem_of_tailMatches ht
        · rw [if_neg ht] at h
          exact absurd h (by simp)

lemma euro_mem_of_searchGroup :
    ∀ (l g : List Char), searchGroup l = some g → '€' ∈ l := by
  intro l
  induction l with
  | nil =>
    intro g h
    rw [searchGroup] at h
    exact absurd h (by simp)
  | cons c rest ih =>
    intro g h
    rw [searchGroup] at h
    by_cases hc : pyDigit c = true
    · rw [if_pos hc] at h
      cases hmb : matchBody 6 rest with
      | some g' => exact List.mem_cons_of_mem c (euro_mem_of_matchBody 6 rest g' hmb)
      | none =>
        rw [hmb] at h
        exact List.mem_cons_of_mem c (ih g h)
    · rw [if_neg hc] at h
      exact List.mem_cons_of_mem c (ih g h)

lemma replace_nbsp_of_digit {c : Char} (h : pyDigit c = true) :
    replaceNbsp c = c := by
  have hne : (c == Char.ofNat 160) = false := by
    simp only [beq_eq_false_iff_ne, ne_eq]
    intro hc
    subst hc
    exact absurd h (by decide)
  unfold replaceNbsp
  rw [hne, if_neg Bool.false_ne_true]

lemma replace_nbsp_group {g : List Char}
    (hg : ∀ c ∈ g, pyDigit c = true ∨ c = ' ') :
    g.map replaceNbsp = g := by
  refine map_id_of_fixed fun c hc => ?_
  rcases hg c hc with h | h
  · exact replace_nbsp_of_digit h
  · subst h; rfl

lemma replace_nbsp_ws {ws : List Char} (h : ∀ c ∈ ws, pySpace c = true) :
    ∀ c ∈ ws.map replaceNbsp, pySpace c = true := by
  intro c hc
  rcases List.mem_map.mp hc with ⟨a, ha, hfa⟩
  unfold replaceNbsp at hfa
  by_cases hnb : (a == Char.ofNat 160) = true
  · rw [if_pos hnb] at hfa
    rw [← hfa]
    decide
  · rw [if_neg hnb] at hfa
    rw [← hfa]
    exact h a ha

lemma replace_nbsp_nondigit {pre : List Char}
    (h : ∀ c ∈ pre, pyDigit c = false) :
    ∀ c ∈ pre.map replaceNbsp, pyDigit c = false := by
  intro c hc
  rcases List.mem_map.mp hc with ⟨a, ha, hfa⟩
  unfold replaceNbsp at hfa
  by_cases hnb : (a == Char.ofNat 160) = true
  · rw [if_pos hnb] at hfa
    rw [← hfa]
    decide
  · rw [if_neg hnb] at hfa
    rw [← hfa]
    exact h a ha

/-- C7 (amended): `parse_price` recognizes the first digit-started run of
digits and grouping spaces whose *total length is at most 7 characters*,
followed (possibly after whitespace) by `€`, and returns its digits as an
integer; with no `€` in the text, and on empty input, it returns `None`.
(The claim's "a run of digits (optionally space-grouped)" of unrestricted
length is false: the regex caps the capture at 7 characters, see the
counterexample.) -/
theorem parse_price_spec :
    (∀ (pre : List Char) (d : Char) (g ws post : List Char),
      (∀ c ∈ pre, pyDigit c = false) →
      pyDigit d = true →
      (∀ c ∈ g, pyDigit c = true ∨ c = ' ') →
      g.length ≤ 6 →
      (∀ c ∈ ws, pySpace c = true) →
      parse_price (pre ++ d :: (g ++ (ws ++ '€' :: post))) =
        some (digitsToNat (d :: g.filter pyDigit))) ∧
    (∀ l : List Char, '€' ∉ l → parse_price l = none) ∧
    parse_price [] = none := by
  refine ⟨?_, ?_, rfl⟩
  · intro pre d g ws post hpre hd hg hlen hws
    have hne : (pre ++ d :: (g ++ (ws ++ '€' :: post))).isEmpty = false := by
      cases pre <;> rfl
    have hgcls : ∀ c ∈ g, classDS c = true := by
      intro c hc
      rcases hg c hc with h | h
      · simp [classDS, h]
      · subst h; decide
    unfold parse_price
    rw [hne, if_neg Bool.false_ne_true]
    simp only [List.map_append, List.map_cons]
    rw [replace_nbsp_of_digit hd, replace_nbsp_group hg,
      show replaceNbsp '€' = '€' from by decide]
    rw [searchGroup_skip (replace_nbsp_nondigit hpre)]
    obtain ⟨w1, w2, hsplit, hsg⟩ :=
      searchGroup_found d hd g (ws.map replaceNbsp) (post.map replaceNbsp)
        hgcls (replace_nbsp_ws hws) hlen
    rw [hsg]
    show pyIntOfString ((d :: (g ++ w1)).filter fun c => c != ' ') =
      some (digitsToNat (d :: g.filter pyDigit))
    have hw1 : ∀ c ∈ w1, pySpace c = true := by
      intro c hc
      exact replace_nbsp_ws hws c (by rw [hsplit]; exact List.mem_append_left _ hc)
    have hfilter : (d :: (g ++ w1)).filter (fun c => c != ' ') =
        (d :: g.filter pyDigit) ++ w1.filter (fun c => c != ' ') := by
      have hdne : (d != ' ') = true := by
        simp only [bne_iff_ne, ne_eq]
        intro hcc
        subst hcc
        exact absurd hd (by decide)
      rw [List.filter_cons, hdne]
      simp only [List.filter_append, filter_group_digits hg, List.cons_append]
      simp
    rw [hfilter]
    exact pyIntOfString_digits_ws d hd (g.filter pyDigit)
      (fun c hc => (List.mem_filter.mp hc).2)
      (w1.filter fun c => c != ' ')
      (fun c hc => hw1 c (List.mem_filter.mp hc).1)
  · intro l hl
    unfold parse_price
    by_cases hemp : l.isEmpty = true
    · rw [if_pos hemp]
    · rw [if_neg hemp]
      cases hsg : searchGroup (l.map replaceNbsp) with
      | none => simp [hsg]
      | some g =>
        exfalso
        have hm : '€' ∈ l.map replaceNbsp :=
          euro_mem_of_searchGroup _ g hsg
        rcases List.mem_map.mp hm with ⟨a, ha, hfa⟩
        unfold replaceNbsp at hfa
        by_cases hnb : (a == Char.ofNat 160) = true
        · rw [if_pos hnb] at hfa
          exact absurd hfa (by decide)
        · rw [if_neg hnb] at hfa
          exact hl (hfa ▸ ha)

theorem parse_price_spec_witness :
    parse_price "Prix: 250 €".toList = some 250 :=
  parse_price_spec.1 "Prix: ".toList '2' "50".toList [' '] []
    (by decide) (by decide) (by decide) (by decide) (by decide)

/-- C7 counterexample: `"12345678 €"` contains one currency-marked run of
digits, `12345678`, yet `parse_price` does not return it: the regex caps
the captured group at 7 characters and `re.search` settles on the match
starting at the second digit, yielding 2345678. -/
theorem parse_price_truncates :
    parse_price "12345678 €".toList = some 2345678 ∧
    parse_price "12345678 €".toList ≠ some 12345678 := by
  exact ⟨by decide, by decide⟩

end ModeA
